import Mathlib

/-!
Shallow embedding of the RAG memory core (`rag_memory_agent/core.py`):
chunking, deduplicating ingestion into a FAISS-like vector store with a
parallel metadata ledger, visit tracking, and hybrid
similarity/freshness/popularity scoring for search.

Python strings are modelled as `List Char` (character-indexed slicing),
floats as `ℝ`, JSON rows as a `Row` structure with `Option` fields for
keys accessed through `dict.get`.  The SHA1 hash, the embedding provider
and the ISO-timestamp parser are external effects and appear as function
parameters.  The scoring weights (`HALF_LIFE_DAYS`, `FRESHNESS_WEIGHT`,
`POPULARITY_WEIGHT`, `SIM_WEIGHT`, `TEMP_WEIGHT`) are imported by
`core.py` from configuration that is absent from the sources, so they are
carried as parameters of the scoring model, as the spec treats them
("weights are configuration constants").
-/

namespace RagCore

/-! ### Chunker (`_chunks`) -/

/-- One step of `_chunks`: starting at offset `i`, while `i < len(text)`
yield `(i, text[i:i+size])` and advance by `max 1 (size - overlap)`. -/
def chunksAux (size overlap : Nat) (text : List Char) (i : Nat) :
    List (Nat × List Char) :=
  if h : i < text.length then
    (i, (text.drop i).take size) :: chunksAux size overlap text (i + max 1 (size - overlap))
  else
    []
termination_by text.length - i
decreasing_by
  have h1 : 1 ≤ max 1 (size - overlap) := le_max_left _ _
  omega

/-- `_chunks(text, size, overlap)` as a list of `(offset, window)` pairs. -/
def chunks (size overlap : Nat) (text : List Char) : List (Nat × List Char) :=
  chunksAux size overlap text 0

/-! ### Metadata ledger rows -/

/-- One ledger row (one line of `metadata.jsonl`).  Fields read through
`dict.get` in the code are `Option`-valued. -/
structure Row where
  url : String
  title : String
  timestamp : Option String
  chunk_id : String
  offset_start : Nat
  snippet : Option (List Char)
  chunk_hash : Option String
  chunk : Option (List Char)
  visits : Option Int
  last_seen : Option String
deriving DecidableEq

/-- In-memory store state: `_index` (`None` until the first append, then the
list of vectors of the FAISS flat index) and `_meta` (the ledger). -/
structure St (V : Type) where
  index : Option (List V)
  meta : List Row
deriving DecidableEq

/-- Fresh state: no index file, empty ledger. -/
def emptySt (V : Type) : St V := ⟨none, []⟩

/-- `ntotal` of the store (0 when the index is `None`). -/
def vecCount {V : Type} : Option (List V) → Nat
  | none => 0
  | some l => l.length

/-! ### Visit tracker (`visit_url_core`) -/

/-- Result dictionary of `visit_url_core`. -/
structure VisitRes where
  ok : Bool
  url : String
  visits : Int
  reason : Option String
deriving DecidableEq

/-- The per-row update of `visit_url_core`: on a url match set `last_seen`
and increment `visits` (missing `visits` reads as 0). -/
def bumpRow (nowIso url : String) (r : Row) : Row :=
  if r.url = url then
    { r with last_seen := some nowIso, visits := some (r.visits.getD 0 + 1) }
  else r

/-- `visit_url_core(url)`: update every matching ledger row, report the
running maximum (seeded with 0) of the updated visit counts; if no row
matches, report a `url_not_indexed` failure and change nothing. -/
def visitUrlCore {V : Type} (s : St V) (url nowIso : String) : St V × VisitRes :=
  let found := s.meta.any (fun r => r.url = url)
  let maxV := s.meta.foldl
    (fun a r => if r.url = url then max a (r.visits.getD 0 + 1) else a) 0
  if found then
    ({ s with meta := s.meta.map (bumpRow nowIso url) }, ⟨true, url, maxV, none⟩)
  else
    (s, ⟨false, url, 0, some "url_not_indexed"⟩)

/-! ### Ingestion (`index_page_core` and `_append`) -/

/-- Zero-padded `f"{n:04d}"` used in `chunk_id`. -/
def pad4 (n : Nat) : String :=
  if n < 10 then "000" ++ toString n
  else if n < 100 then "00" ++ toString n
  else if n < 1000 then "0" ++ toString n
  else toString n

/-- The row built for a fresh chunk inside `index_page_core`'s loop.
`count` is `len(rows)` at insertion time, `h` the chunk hash. -/
def mkRow (url title ts base : String) (visitsInit : Int) (h : String)
    (count off : Nat) (ch : List Char) : Row :=
  { url := url
    title := title
    timestamp := some ts
    chunk_id := base ++ "#c" ++ pad4 count
    offset_start := off
    snippet := some (ch.take 240)
    chunk_hash := some h
    chunk := some ch
    visits := some visitsInit
    last_seen := some ts }

/-- The chunk-collecting loop of `index_page_core`: stop (`break`) once
`maxc` rows are accumulated, skip chunks whose hash is already in
`existing`, otherwise append a fresh row.  `hashF url off ch` models
`sha1((url + str(off) + chunk).encode()).hexdigest()[:16]`. -/
def collectRows (hashF : String → Nat → List Char → String)
    (url title ts base : String) (visitsInit : Int) (maxc : Nat)
    (existing : List String) :
    List (Nat × List Char) → List Row → List Row
  | [], acc => acc
  | (off, ch) :: rest, acc =>
    if maxc ≤ acc.length then acc
    else if hashF url off ch ∈ existing then
      collectRows hashF url title ts base visitsInit maxc existing rest acc
    else
      collectRows hashF url title ts base visitsInit maxc existing rest
        (acc ++ [mkRow url title ts base visitsInit (hashF url off ch) acc.length off ch])

/-- `_append(vecs, rows)`: add the vectors to the index (creating it when
`None`) and extend the ledger. -/
def appendSt {V : Type} (vecs : List V) (rows : List Row) (s : St V) : St V :=
  ⟨some (s.index.getD [] ++ vecs), s.meta ++ rows⟩

/-- `visits_init = max(1, max(prior visits for url, default 0))`. -/
def visitsInitOf (meta : List Row) (url : String) : Int :=
  max 1 (((meta.filter (fun m => m.url = url)).map (fun m => m.visits.getD 0)).foldl max 0)

/-- The set of known chunk hashes (`{m.get("chunk_hash") for m in _meta}`). -/
def existingHashes (meta : List Row) : List String :=
  meta.filterMap (fun m => m.chunk_hash)

/-- The rows `index_page_core` would build for `(url, title, text)` on
state `s`. -/
def rowsOf {V : Type} (hashF : String → Nat → List Char → String)
    (baseF : String → String) (size overlap maxc : Nat) (s : St V)
    (url title : String) (text : List Char) (nowIso : String) : List Row :=
  collectRows hashF url title nowIso (baseF url) (visitsInitOf s.meta url) maxc
    (existingHashes s.meta) (chunks size overlap text) []

/-- The texts sent to the embedding provider (`payloads`), one per fresh
row. -/
def payloadsOf {V : Type} (hashF : String → Nat → List Char → String)
    (baseF : String → String) (size overlap maxc : Nat) (s : St V)
    (url title : String) (text : List Char) (nowIso : String) : List (List Char) :=
  (rowsOf hashF baseF size overlap maxc s url title text nowIso).map
    (fun r => r.chunk.getD [])

/-- `index_page_core(url, title, text)`: chunk, dedup, cap, and — only when
fresh chunks remain — embed the batch and append vectors and rows.  A
failing embedding call (`Except.error`) propagates and produces no state
change; the `Nat` in the result is `indexed_chunks`. -/
def indexPageCore {V : Type} (embed : List (List Char) → Except String (List V))
    (hashF : String → Nat → List Char → String) (baseF : String → String)
    (size overlap maxc : Nat) (s : St V) (url title : String)
    (text : List Char) (nowIso : String) : Except String (St V × Nat) :=
  let rows := rowsOf hashF baseF size overlap maxc s url title text nowIso
  if rows.isEmpty then .ok (s, 0)
  else
    match embed (rows.map (fun r => r.chunk.getD [])) with
    | .error e => .error e
    | .ok vecs => .ok (appendSt vecs rows s, rows.length)

/-! ### Operation sequences over the shared store -/

/-- A mutating call against the store: one `index_page_core` or one
`visit_url_core` invocation (each carries its wall-clock timestamp). -/
inductive Op where
  | ingest (url title : String) (text : List Char) (nowIso : String)
  | visit (url nowIso : String)

/-- Execute one operation; a raised embedding error leaves the global
state as it was. -/
def stepOp {V : Type} (embed : List (List Char) → Except String (List V))
    (hashF : String → Nat → List Char → String) (baseF : String → String)
    (size overlap maxc : Nat) (s : St V) : Op → St V
  | .ingest url title text nowIso =>
    match indexPageCore embed hashF baseF size overlap maxc s url title text nowIso with
    | .ok (s', _) => s'
    | .error _ => s
  | .visit url nowIso => (visitUrlCore s url nowIso).1

/-- Run a sequence of operations left to right. -/
def runOps {V : Type} (embed : List (List Char) → Except String (List V))
    (hashF : String → Nat → List Char → String) (baseF : String → String)
    (size overlap maxc : Nat) (s : St V) (ops : List Op) : St V :=
  ops.foldl (stepOp embed hashF baseF size overlap maxc) s

/-! ### Embedding normalization (`_embed_batch`, lines 62–65) -/

/-- `np.linalg.norm` of one row: the L2 norm. -/
noncomputable def l2norm (v : List ℝ) : ℝ :=
  Real.sqrt ((v.map (fun x => x ^ 2)).sum)

/-- The divisor used for one row after `norms[norms == 0.0] = 1.0`. -/
noncomputable def normDenom (v : List ℝ) : ℝ :=
  if l2norm v = 0 then 1 else l2norm v

/-- One row of `arr / norms`. -/
noncomputable def normalizeRow (v : List ℝ) : List ℝ :=
  v.map (fun x => x / normDenom v)

/-- The normalization step applied to the whole batch. -/
noncomputable def normalizeRows (arr : List (List ℝ)) : List (List ℝ) :=
  arr.map normalizeRow

/-! ### Scoring and search (`search_documents_core`) -/

/-- Scoring configuration: the weight constants `core.py` imports from its
configuration module, plus the external ISO-timestamp parser
(`datetime.fromisoformat(...).timestamp()`, `none` on a parse failure) and
the formatter for the fallback timestamp string
(`datetime.utcfromtimestamp(now).isoformat() + "Z"`). -/
structure SCfg where
  halfLife : ℝ
  freshW : ℝ
  popW : ℝ
  simW : ℝ
  tempW : ℝ
  parseTs : String → Option ℝ
  fallbackTs : ℝ → String

/-- `ts_sec`: parse the row timestamp; a missing, empty or malformed
timestamp falls back to `now`. -/
noncomputable def tsSecOf (c : SCfg) (now : ℝ) : Option String → ℝ
  | none => now
  | some s => if s = "" then now else (c.parseTs s).getD now

/-- `days = max(0.0, (now - ts_sec) / 86400.0)`. -/
noncomputable def ageDaysOf (c : SCfg) (now : ℝ) (r : Row) : ℝ :=
  max 0 ((now - tsSecOf c now r.timestamp) / 86400)

/-- `lambda_ = log(2) / max(1e-6, HALF_LIFE_DAYS)`. -/
noncomputable def lamOf (c : SCfg) : ℝ :=
  Real.log 2 / max (1 / 1000000) c.halfLife

/-- `freshness = exp(-lambda_ * days)`. -/
noncomputable def freshnessOf (c : SCfg) (now : ℝ) (r : Row) : ℝ :=
  Real.exp (-lamOf c * ageDaysOf c now r)

/-- `visits = float(m.get("visits", 1))`. -/
noncomputable def visitsValOf (r : Row) : ℝ := ((r.visits.getD 1 : ℤ) : ℝ)

/-- `popularity = 1.0 - exp(-visits / 3.0)`. -/
noncomputable def popularityOf (r : Row) : ℝ :=
  1 - Real.exp (-visitsValOf r / 3)

/-- `hybrid = FRESHNESS_WEIGHT * freshness + POPULARITY_WEIGHT * popularity`. -/
noncomputable def hybridOf (c : SCfg) (now : ℝ) (r : Row) : ℝ :=
  c.freshW * freshnessOf c now r + c.popW * popularityOf r

/-- `final = SIM_WEIGHT * sim + TEMP_WEIGHT * hybrid`. -/
noncomputable def scoreOf (c : SCfg) (now : ℝ) (sim : ℝ) (r : Row) : ℝ :=
  c.simW * sim + c.tempW * hybridOf c now r

/-- One result dictionary appended to `hits`. -/
structure Hit where
  url : String
  title : String
  snippet : List Char
  chunk_id : String
  score : ℝ
  timestamp : String

/-- `m.get("snippet") or m.get("chunk","")[:240]` (`or` treats an empty
snippet as absent). -/
def snippetOf (r : Row) : List Char :=
  match r.snippet with
  | some s => if s = [] then (r.chunk.getD []).take 240 else s
  | none => (r.chunk.getD []).take 240

/-- `ts or datetime.utcfromtimestamp(now).isoformat() + "Z"`. -/
noncomputable def tsStrOf (c : SCfg) (now : ℝ) : Option String → String
  | none => c.fallbackTs now
  | some s => if s = "" then c.fallbackTs now else s

/-- The hit built from ledger row `r` with raw similarity `sim`. -/
noncomputable def mkHit (c : SCfg) (now : ℝ) (r : Row) (sim : ℝ) : Hit :=
  { url := r.url
    title := r.title
    snippet := snippetOf r
    chunk_id := r.chunk_id
    score := scoreOf c now sim r
    timestamp := tsStrOf c now r.timestamp }

/-- The scan over `zip(I[0], D[0])`: candidate indices out of the ledger's
range (including the `-1` padding FAISS emits when it holds fewer than the
requested number of vectors) are skipped, the rest are scored. -/
noncomputable def hitsListOf (c : SCfg) (now : ℝ) (meta : List Row)
    (cands : List (Int × ℝ)) : List Hit :=
  cands.filterMap (fun p =>
    if h : 0 ≤ p.1 ∧ p.1.toNat < meta.length then
      some (mkHit c now (meta.get ⟨p.1.toNat, h.2⟩) p.2)
    else none)

/-- Comparison used by `hits.sort(key=lambda x: x["score"], reverse=True)`:
`a` may come before `b` when its score is at least `b`'s. -/
def hitGe (a b : Hit) : Prop := b.score ≤ a.score

noncomputable instance : DecidableRel hitGe :=
  fun a b => inferInstanceAs (Decidable (b.score ≤ a.score))

instance : IsTotal Hit hitGe := ⟨fun a b => le_total b.score a.score⟩

instance : IsTrans Hit hitGe := ⟨fun _ _ _ h1 h2 => le_trans h2 h1⟩

/-- The stable descending-by-score sort of the hit list (Python's `sort`
is stable). -/
noncomputable def sortHits (l : List Hit) : List Hit :=
  List.insertionSort hitGe l

/-- `search_documents_core`: empty or missing index short-circuits to `[]`;
otherwise score the FAISS candidates `cands` (the zipped `I`/`D` arrays for
the embedded query, `top_k * 4` of them), sort stably by descending score
and truncate to `top_k`. -/
noncomputable def searchDocumentsCore {V : Type} (c : SCfg) (s : St V)
    (now : ℝ) (cands : List (Int × ℝ)) (top_k : Nat) : List Hit :=
  if vecCount s.index = 0 then []
  else (sortHits (hitsListOf c now s.meta cands)).take top_k

/-! ### Chunker lemmas -/

theorem ceil_div_step (a st : Nat) (hst : 0 < st) (ha : 1 ≤ a) :
    (a + st - 1) / st = (a - st + st - 1) / st + 1 := by
  rcases le_or_lt a st with h | h
  · have h1 : a - st = 0 := by omega
    have h3 : a + st - 1 = a - 1 + st := by omega
    rw [h1, h3, Nat.add_div_right _ hst, Nat.zero_add,
      Nat.div_eq_of_lt (show st - 1 < st by omega),
      Nat.div_eq_of_lt (show a - 1 < st by omega)]
  · have h3 : a + st - 1 = a - 1 + st := by omega
    have h4 : a - st + st - 1 = a - 1 := by omega
    rw [h3, h4, Nat.add_div_right _ hst]

theorem chunksAux_map_fst (size overlap : Nat) (text : List Char) :
    ∀ (n i : Nat), text.length - i ≤ n →
      (chunksAux size overlap text i).map Prod.fst =
        List.range' i ((text.length - i + max 1 (size - overlap) - 1) /
          max 1 (size - overlap)) (max 1 (size - overlap)) := by
  have hst : 0 < max 1 (size - overlap) := lt_of_lt_of_le one_pos (le_max_left _ _)
  intro n
  induction n with
  | zero =>
    intro i hle
    have hge : ¬ i < text.length := by omega
    rw [chunksAux, dif_neg hge]
    have h0 : text.length - i = 0 := by omega
    rw [h0, Nat.zero_add,
      Nat.div_eq_of_lt (show max 1 (size - overlap) - 1 < max 1 (size - overlap) by omega)]
    simp
  | succ n ih =>
    intro i hle
    rw [chunksAux]
    by_cases h : i < text.length
    · rw [dif_pos h]
      have hrec := ih (i + max 1 (size - overlap)) (by omega)
      have hcount : (text.length - i + max 1 (size - overlap) - 1) / max 1 (size - overlap)
          = (text.length - (i + max 1 (size - overlap)) + max 1 (size - overlap) - 1) /
              max 1 (size - overlap) + 1 := by
        have := ceil_div_step (text.length - i) (max 1 (size - overlap)) hst (by omega)
        have heq : text.length - i - max 1 (size - overlap)
            = text.length - (i + max 1 (size - overlap)) := by omega
        rw [heq] at this
        exact this
      rw [hcount, List.range'_succ, List.map_cons, hrec]
    · rw [dif_neg h]
      have h0 : text.length - i = 0 := by omega
      rw [h0, Nat.zero_add,
        Nat.div_eq_of_lt (show max 1 (size - overlap) - 1 < max 1 (size - overlap) by omega)]
      simp

theorem chunksAux_mem (size overlap : Nat) (text : List Char) :
    ∀ (n i : Nat), text.length - i ≤ n →
      ∀ p ∈ chunksAux size overlap text i,
        p.1 < text.length ∧ p.2 = (text.drop p.1).take size := by
  intro n
  induction n with
  | zero =>
    intro i hle p hp
    rw [chunksAux, dif_neg (by omega)] at hp
    exact absurd hp (List.not_mem_nil p)
  | succ n ih =>
    intro i hle p hp
    rw [chunksAux] at hp
    by_cases h : i < text.length
    · rw [dif_pos h] at hp
      rcases List.mem_cons.mp hp with rfl | hp'
      · exact ⟨h, rfl⟩
      · exact ih (i + max 1 (size - overlap)) (by
          have h1 : 1 ≤ max 1 (size - overlap) := le_max_left _ _
          omega) p hp'
    · rw [dif_neg h] at hp
      exact absurd hp (List.not_mem_nil p)

/-- C5: the chunker emits windows at offsets `0, step, 2*step, …` strictly
below the text length, where `step = max 1 (size - overlap)` (the default
step 1 when `size - overlap ≤ 0`); each window is `text[i : i+size]`, of
length `min size (length - i)`; empty text yields no windows. -/
theorem C5_chunker_windows (size overlap : Nat) (text : List Char) :
    ((chunks size overlap text).map Prod.fst =
      List.range' 0 ((text.length + max 1 (size - overlap) - 1) /
        max 1 (size - overlap)) (max 1 (size - overlap)))
    ∧ (∀ p ∈ chunks size overlap text,
        p.1 < text.length ∧ p.2 = (text.drop p.1).take size ∧
        p.2.length = min size (text.length - p.1))
    ∧ (text = [] → chunks size overlap text = []) := by
  refine ⟨?_, ?_, ?_⟩
  · have := chunksAux_map_fst size overlap text text.length 0 (by omega)
    simpa using this
  · intro p hp
    have := chunksAux_mem size overlap text text.length 0 (by omega) p hp
    refine ⟨this.1, this.2, ?_⟩
    rw [this.2]
    simp [List.length_take, List.length_drop]
  · intro h
    subst h
    rw [chunks, chunksAux]
    simp

/-- Concrete check of C5: text of length 5, size 3, overlap 1 gives
windows at offsets 0, 2, 4. -/
theorem C5_chunker_windows_witness :
    (chunks 3 1 ['a', 'b', 'c', 'd', 'e']).map Prod.fst = [0, 2, 4] := by
  have h := (C5_chunker_windows 3 1 ['a', 'b', 'c', 'd', 'e']).1
  rw [h]
  rfl

/-! ### Store/ledger alignment (claim C1) -/

/-- Positional alignment: the index holds exactly one vector per ledger
row. -/
def aligned {V : Type} (s : St V) : Prop := vecCount s.index = s.meta.length

theorem vecCount_eq_getD {V : Type} (o : Option (List V)) :
    vecCount o = (o.getD []).length := by
  cases o <;> rfl

theorem visitUrlCore_meta_length {V : Type} (s : St V) (url nowIso : String) :
    (visitUrlCore s url nowIso).1.meta.length = s.meta.length := by
  by_cases h : s.meta.any (fun r => r.url = url) <;> simp [visitUrlCore, h]

theorem visitUrlCore_index {V : Type} (s : St V) (url nowIso : String) :
    (visitUrlCore s url nowIso).1.index = s.index := by
  by_cases h : s.meta.any (fun r => r.url = url) <;> simp [visitUrlCore, h]

theorem stepOp_visit {V : Type}
    (embed : List (List Char) → Except String (List V))
    (hashF : String → Nat → List Char → String) (baseF : String → String)
    (size overlap maxc : Nat) (s : St V) (url nowIso : String) :
    stepOp embed hashF baseF size overlap maxc s (.visit url nowIso)
      = (visitUrlCore s url nowIso).1 := rfl

theorem stepOp_ingest_ok {V : Type}
    (embed : List (List Char) → Except String (List V))
    (hashF : String → Nat → List Char → String) (baseF : String → String)
    (size overlap maxc : Nat) (s : St V) (url title : String)
    (text : List Char) (nowIso : String) (s' : St V) (k : Nat)
    (hcall : indexPageCore embed hashF baseF size overlap maxc s url title text nowIso
      = .ok (s', k)) :
    stepOp embed hashF baseF size overlap maxc s (.ingest url title text nowIso) = s' := by
  simp only [stepOp, hcall]

theorem stepOp_ingest_err {V : Type}
    (embed : List (List Char) → Except String (List V))
    (hashF : String → Nat → List Char → String) (baseF : String → String)
    (size overlap maxc : Nat) (s : St V) (url title : String)
    (text : List Char) (nowIso e : String)
    (hcall : indexPageCore embed hashF baseF size overlap maxc s url title text nowIso
      = .error e) :
    stepOp embed hashF baseF size overlap maxc s (.ingest url title text nowIso) = s := by
  simp only [stepOp, hcall]

theorem indexPageCore_ok_cases {V : Type}
    (embed : List (List Char) → Except String (List V))
    (hashF : String → Nat → List Char → String) (baseF : String → String)
    (size overlap maxc : Nat) (s : St V) (url title : String)
    (text : List Char) (nowIso : String) (s' : St V) (k : Nat)
    (h : indexPageCore embed hashF baseF size overlap maxc s url title text nowIso
      = .ok (s', k)) :
    (s' = s ∧ k = 0 ∧ rowsOf hashF baseF size overlap maxc s url title text nowIso = []) ∨
      ∃ vecs,
        embed (payloadsOf hashF baseF size overlap maxc s url title text nowIso)
            = .ok vecs ∧
          s' = appendSt vecs (rowsOf hashF baseF size overlap maxc s url title text nowIso) s ∧
          k = (rowsOf hashF baseF size overlap maxc s url title text nowIso).length := by
  unfold indexPageCore at h
  by_cases hrows :
      (rowsOf hashF baseF size overlap maxc s url title text nowIso).isEmpty
  · rw [if_pos hrows] at h
    have h' := Except.ok.inj h
    exact Or.inl ⟨(congrArg Prod.fst h').symm, (congrArg Prod.snd h').symm,
      List.isEmpty_iff.mp hrows⟩
  · rw [if_neg hrows] at h
    cases hemb : embed
        ((rowsOf hashF baseF size overlap maxc s url title text nowIso).map
          (fun r => r.chunk.getD [])) with
    | error e => rw [hemb] at h; exact absurd h (by simp)
    | ok vecs =>
      rw [hemb] at h
      have h' := Except.ok.inj h
      exact Or.inr ⟨vecs, hemb, (congrArg Prod.fst h').symm, (congrArg Prod.snd h').symm⟩

theorem stepOp_aligned {V : Type}
    (embed : List (List Char) → Except String (List V))
    (hashF : String → Nat → List Char → String) (baseF : String → String)
    (size overlap maxc : Nat)
    (hembed : ∀ ts vs, embed ts = .ok vs → vs.length = ts.length)
    (s : St V) (op : Op) (hs : aligned s) :
    aligned (stepOp embed hashF baseF size overlap maxc s op) := by
  cases op with
  | visit url nowIso =>
    rw [stepOp_visit]
    unfold aligned
    rw [visitUrlCore_index, visitUrlCore_meta_length]
    exact hs
  | ingest url title text nowIso =>
    cases hcall : indexPageCore embed hashF baseF size overlap maxc s url title text nowIso with
    | error e => rw [stepOp_ingest_err embed hashF baseF size overlap maxc s _ _ _ _ _ hcall]; exact hs
    | ok p =>
      rw [stepOp_ingest_ok embed hashF baseF size overlap maxc s _ _ _ _ p.1 p.2 (by rw [hcall])]
      rcases indexPageCore_ok_cases embed hashF baseF size overlap maxc s url title
          text nowIso p.1 p.2 (by rw [hcall]) with ⟨h1, _, _⟩ | ⟨vecs, hemb, h1, _⟩
      · rw [h1]; exact hs
      · have hlen := hembed _ _ hemb
        unfold aligned at hs ⊢
        rw [h1]
        show (s.index.getD [] ++ vecs).length = (s.meta ++ _).length
        rw [List.length_append, List.length_append, ← vecCount_eq_getD, hs, hlen,
          payloadsOf, List.length_map]

/-- C1: from empty stores, any sequence of ingest/visit operations keeps
the vector store and the metadata ledger at equal length; and when the
embedding call inside `index_page_core` fails (on a nonempty fresh batch),
the call reports exactly that error and the state is unchanged. -/
theorem C1_alignment_and_atomicity {V : Type}
    (embed : List (List Char) → Except String (List V))
    (hashF : String → Nat → List Char → String) (baseF : String → String)
    (size overlap maxc : Nat)
    (hembed : ∀ ts vs, embed ts = .ok vs → vs.length = ts.length) :
    (∀ ops : List Op,
      aligned (runOps embed hashF baseF size overlap maxc (emptySt V) ops))
    ∧ (∀ (s : St V) (url title : String) (text : List Char) (nowIso e : String),
        embed (payloadsOf hashF baseF size overlap maxc s url title text nowIso)
            = .error e →
        rowsOf hashF baseF size overlap maxc s url title text nowIso ≠ [] →
        indexPageCore embed hashF baseF size overlap maxc s url title text nowIso
            = .error e ∧
          stepOp embed hashF baseF size overlap maxc s (.ingest url title text nowIso)
            = s) := by
  constructor
  · intro ops
    have key : ∀ (l : List Op) (s : St V), aligned s →
        aligned (runOps embed hashF baseF size overlap maxc s l) := by
      intro l
      induction l with
      | nil => intro s hs; exact hs
      | cons op rest ih =>
        intro s hs
        exact ih _ (stepOp_aligned embed hashF baseF size overlap maxc hembed s op hs)
    exact key ops (emptySt V) rfl
  · intro s url title text nowIso e herr hrows
    have hcall : indexPageCore embed hashF baseF size overlap maxc s url title text nowIso
        = .error e := by
      unfold indexPageCore
      rw [if_neg (by simpa [List.isEmpty_iff] using hrows)]
      rw [show (rowsOf hashF baseF size overlap maxc s url title text nowIso).map
            (fun r => r.chunk.getD [])
          = payloadsOf hashF baseF size overlap maxc s url title text nowIso from rfl,
        herr]
    exact ⟨hcall, stepOp_ingest_err embed hashF baseF size overlap maxc s _ _ _ _ _ hcall⟩

/-- Test embedder producing one unit vector per payload. -/
def embedOkU : List (List Char) → Except String (List Unit) :=
  fun ts => .ok (ts.map (fun _ => ()))

/-- Test embedder that always fails. -/
def embedFailU : List (List Char) → Except String (List Unit) :=
  fun _ => .error "boom"

/-- Injective stand-in for the truncated SHA1 chunk hash. -/
def hashId : String → Nat → List Char → String :=
  fun u off ch => u ++ "|" ++ toString off ++ "|" ++ String.mk ch

/-- Stand-in for the truncated SHA1 url hash. -/
def baseId : String → String := fun u => u

theorem C1_alignment_and_atomicity_witness :
    aligned (runOps embedOkU hashId baseId 3 1 5 (emptySt Unit)
      [Op.ingest "u" "t" ['a', 'b', 'c', 'd'] "T0", Op.visit "u" "T1"]) :=
  (C1_alignment_and_atomicity embedOkU hashId baseId 3 1 5
    (fun ts vs h => by
      simp only [embedOkU, Except.ok.injEq] at h
      rw [← h, List.length_map])).1
    [Op.ingest "u" "t" ['a', 'b', 'c', 'd'] "T0", Op.visit "u" "T1"]

/-! ### Visit tracker lemmas (claim C6) -/

theorem bumpRow_url (nowIso url : String) (r : Row) :
    (bumpRow nowIso url r).url = r.url := by
  unfold bumpRow
  split <;> rfl

theorem bumpRow_of_match (nowIso url : String) (r : Row) (h : r.url = url) :
    (bumpRow nowIso url r).visits = some (r.visits.getD 0 + 1) ∧
      (bumpRow nowIso url r).last_seen = some nowIso := by
  unfold bumpRow
  rw [if_pos h]
  exact ⟨rfl, rfl⟩

theorem bumpRow_of_nomatch (nowIso url : String) (r : Row) (h : ¬ r.url = url) :
    bumpRow nowIso url r = r := by
  unfold bumpRow
  rw [if_neg h]

theorem foldl_max_le_int (l : List Int) :
    ∀ (a : Int), (a ≤ l.foldl max a) ∧ ∀ v ∈ l, v ≤ l.foldl max a := by
  induction l with
  | nil => intro a; exact ⟨le_refl a, by intro v hv; exact absurd hv (List.not_mem_nil v)⟩
  | cons b l ih =>
    intro a
    have h1 := (ih (max a b)).1
    refine ⟨le_trans (le_max_left a b) h1, ?_⟩
    intro v hv
    rcases List.mem_cons.mp hv with rfl | hv'
    · exact le_trans (le_max_right a v) h1
    · exact (ih (max a b)).2 v hv'

theorem foldl_max_mem_or_int (l : List Int) :
    ∀ (a : Int), l.foldl max a = a ∨ l.foldl max a ∈ l := by
  induction l with
  | nil => intro a; exact Or.inl rfl
  | cons b l ih =>
    intro a
    have hred : List.foldl max a (b :: l) = List.foldl max (max a b) l := rfl
    rcases ih (max a b) with h | h
    · rcases max_choice a b with hm | hm
      · exact Or.inl (by rw [hred, h, hm])
      · exact Or.inr (by rw [hred, h, hm]; exact List.mem_cons_self b l)
    · exact Or.inr (by rw [hred]; exact List.mem_cons_of_mem b h)

theorem visit_fold_eq_filter_map (url : String) (meta : List Row) :
    ∀ (a : Int),
      meta.foldl (fun a r => if r.url = url then max a (r.visits.getD 0 + 1) else a) a
        = ((meta.filter (fun r => r.url = url)).map
            (fun r => r.visits.getD 0 + 1)).foldl max a := by
  induction meta with
  | nil => intro a; rfl
  | cons r l ih =>
    intro a
    by_cases h : r.url = url
    · rw [List.foldl_cons, if_pos h,
        show (r :: l).filter (fun r => r.url = url)
          = r :: l.filter (fun r => r.url = url) from by simp [List.filter_cons, h],
        List.map_cons, List.foldl_cons]
      exact ih (max a (r.visits.getD 0 + 1))
    · rw [List.foldl_cons, if_neg h,
        show (r :: l).filter (fun r => r.url = url)
          = l.filter (fun r => r.url = url) from by simp [List.filter_cons, h]]
      exact ih a

/-- C6: `record_visit` either finds matching ledger rows — then every
matching row's `visits` goes up by exactly one (strictly increasing),
`last_seen` is set, non-matching rows and the vector store are untouched,
and the reported `visits` is the maximum over the updated matching rows —
or finds none and fails with `url_not_indexed` leaving the state as it
was. -/
theorem C6_record_visit {V : Type} (s : St V) (url nowIso : String)
    (hv : ∀ r ∈ s.meta, 0 ≤ r.visits.getD 0) :
    ((∃ r ∈ s.meta, r.url = url) →
      (visitUrlCore s url nowIso).2.ok = true ∧
      (visitUrlCore s url nowIso).1.index = s.index ∧
      (visitUrlCore s url nowIso).1.meta = s.meta.map (bumpRow nowIso url) ∧
      (∀ r ∈ s.meta, r.url = url →
        (bumpRow nowIso url r).visits = some (r.visits.getD 0 + 1) ∧
          r.visits.getD 0 < (bumpRow nowIso url r).visits.getD 0 ∧
          (bumpRow nowIso url r).last_seen = some nowIso) ∧
      (∀ r ∈ s.meta, r.url ≠ url → bumpRow nowIso url r = r) ∧
      ((visitUrlCore s url nowIso).2.visits ∈
          (((visitUrlCore s url nowIso).1.meta.filter (fun r => r.url = url)).map
            (fun r => r.visits.getD 0)) ∧
        ∀ v ∈ (((visitUrlCore s url nowIso).1.meta.filter (fun r => r.url = url)).map
            (fun r => r.visits.getD 0)), v ≤ (visitUrlCore s url nowIso).2.visits))
    ∧ ((¬ ∃ r ∈ s.meta, r.url = url) →
        visitUrlCore s url nowIso = (s, ⟨false, url, 0, some "url_not_indexed"⟩)) := by
  constructor
  · intro hfound
    have hany : s.meta.any (fun r => r.url = url) = true := by
      rw [List.any_eq_true]
      obtain ⟨r, hr, hu⟩ := hfound
      exact ⟨r, hr, by simp [hu]⟩
    have hres : visitUrlCore s url nowIso
        = ({ s with meta := s.meta.map (bumpRow nowIso url) },
            ⟨true, url,
              s.meta.foldl
                (fun a r => if r.url = url then max a (r.visits.getD 0 + 1) else a) 0,
              none⟩) := by
      unfold visitUrlCore
      rw [if_pos hany]
    refine ⟨by rw [hres], by rw [hres], by rw [hres], ?_, ?_, ?_⟩
    · intro r _ hu
      have h := bumpRow_of_match nowIso url r hu
      exact ⟨h.1, by rw [h.1]; simp, h.2⟩
    · intro r _ hu
      exact bumpRow_of_nomatch nowIso url r hu
    · -- the reported visit count is the max over the updated matching rows
      have hvals :
          (((visitUrlCore s url nowIso).1.meta.filter (fun r => r.url = url)).map
              (fun r => r.visits.getD 0))
            = ((s.meta.filter (fun r => r.url = url)).map
                (fun r => r.visits.getD 0 + 1)) := by
        rw [hres]
        show (((s.meta.map (bumpRow nowIso url)).filter (fun r => r.url = url)).map
            (fun r => r.visits.getD 0)) = _
        rw [List.filter_map, List.map_map]
        have hpred : (fun r => decide (r.url = url)) ∘ bumpRow nowIso url
            = (fun r => decide (r.url = url)) := by
          funext r
          simp [bumpRow_url]
        rw [hpred]
        apply List.map_congr_left
        intro r hr
        have hu : r.url = url := by
          have := List.of_mem_filter hr
          simpa using this
        show ((bumpRow nowIso url r).visits.getD 0) = r.visits.getD 0 + 1
        rw [(bumpRow_of_match nowIso url r hu).1]
        rfl
      have hfold : (visitUrlCore s url nowIso).2.visits
          = ((s.meta.filter (fun r => r.url = url)).map
              (fun r => r.visits.getD 0 + 1)).foldl max 0 := by
        rw [hres]
        exact visit_fold_eq_filter_map url s.meta 0
      set vals := ((s.meta.filter (fun r => r.url = url)).map
        (fun r => r.visits.getD 0 + 1)) with hvalsdef
      have hpos : ∀ v ∈ vals, 0 < v := by
        intro v hvmem
        rw [hvalsdef] at hvmem
        obtain ⟨r, hr, hrv⟩ := List.mem_map.mp hvmem
        have := hv r (List.mem_of_mem_filter hr)
        omega
      have hne : vals ≠ [] := by
        obtain ⟨r, hr, hu⟩ := hfound
        have hrf : r ∈ s.meta.filter (fun r => r.url = url) :=
          List.mem_filter.mpr ⟨hr, by simpa using hu⟩
        intro hcon
        rw [hvalsdef] at hcon
        have hnil := List.map_eq_nil_iff.mp hcon
        rw [hnil] at hrf
        exact absurd hrf (List.not_mem_nil r)
      have hmem : vals.foldl max 0 ∈ vals := by
        rcases foldl_max_mem_or_int vals 0 with h | h
        · exfalso
          obtain ⟨v, hvmem⟩ := List.exists_mem_of_ne_nil vals hne
          have h1 := (foldl_max_le_int vals 0).2 v hvmem
          have h2 := hpos v hvmem
          omega
        · exact h
      rw [hvals, hfold]
      exact ⟨hmem, (foldl_max_le_int vals 0).2⟩
  · intro hnone
    have hany : s.meta.any (fun r => r.url = url) = false := by
      rw [List.any_eq_false]
      intro r hr
      simp only [decide_eq_true_eq]
      exact fun hu => hnone ⟨r, hr, hu⟩
    unfold visitUrlCore
    rw [hany]
    simp

/-- A concrete ledger row for witnesses. -/
def testRow : Row :=
  { url := "u"
    title := "t"
    timestamp := some "T0"
    chunk_id := "c0"
    offset_start := 0
    snippet := some ['s']
    chunk_hash := some "h"
    chunk := some ['x']
    visits := some 1
    last_seen := some "T0" }

theorem C6_record_visit_witness :
    (visitUrlCore (⟨none, [testRow]⟩ : St Unit) "u" "T1").2.ok = true :=
  ((C6_record_visit (⟨none, [testRow]⟩ : St Unit) "u" "T1"
    (by intro r hr; fin_cases hr; decide)).1
    ⟨testRow, List.mem_singleton_self testRow, rfl⟩).1

/-! ### A fuel-based twin of the chunker, for concrete evaluation -/

/-- Structurally recursive version of `chunksAux` (fuel-driven), provably
equal to it when given enough fuel; used to evaluate witnesses. -/
def chunksGo (size overlap : Nat) (text : List Char) : Nat → Nat → List (Nat × List Char)
  | 0, _ => []
  | fuel + 1, i =>
    if i < text.length then
      (i, (text.drop i).take size) :: chunksGo size overlap text fuel (i + max 1 (size - overlap))
    else []

theorem chunksAux_eq_go (size overlap : Nat) (text : List Char) :
    ∀ (fuel i : Nat), text.length - i ≤ fuel →
      chunksAux size overlap text i = chunksGo size overlap text fuel i := by
  intro fuel
  induction fuel with
  | zero =>
    intro i hle
    rw [chunksAux, dif_neg (by omega)]
    rfl
  | succ n ih =>
    intro i hle
    rw [chunksAux]
    by_cases h : i < text.length
    · rw [dif_pos h]
      show _ = if i < text.length then _ else _
      rw [if_pos h, ih (i + max 1 (size - overlap))
        (by have : 1 ≤ max 1 (size - overlap) := le_max_left _ _; omega)]
    · rw [dif_neg h]
      show _ = if i < text.length then _ else _
      rw [if_neg h]

theorem chunks_eq_go (size overlap : Nat) (text : List Char) :
    chunks size overlap text = chunksGo size overlap text text.length 0 :=
  chunksAux_eq_go size overlap text text.length 0 (by omega)

/-! ### Ingestion loop lemmas (claims C4 and C8) -/

theorem collectRows_append (hashF : String → Nat → List Char → String)
    (url title ts base : String) (visitsInit : Int) (maxc : Nat)
    (existing : List String) :
    ∀ (l : List (Nat × List Char)) (acc : List Row),
      ∃ tail, collectRows hashF url title ts base visitsInit maxc existing l acc
        = acc ++ tail := by
  intro l
  induction l with
  | nil => intro acc; exact ⟨[], (List.append_nil acc).symm⟩
  | cons p rest ih =>
    intro acc
    obtain ⟨off, ch⟩ := p
    show ∃ tail, (if maxc ≤ acc.length then acc
      else if hashF url off ch ∈ existing then
        collectRows hashF url title ts base visitsInit maxc existing rest acc
      else collectRows hashF url title ts base visitsInit maxc existing rest
        (acc ++ [mkRow url title ts base visitsInit (hashF url off ch) acc.length off ch]))
      = acc ++ tail
    by_cases h1 : maxc ≤ acc.length
    · rw [if_pos h1]; exact ⟨[], (List.append_nil acc).symm⟩
    · rw [if_neg h1]
      by_cases h2 : hashF url off ch ∈ existing
      · rw [if_pos h2]; exact ih acc
      · rw [if_neg h2]
        obtain ⟨tail, htail⟩ := ih
          (acc ++ [mkRow url title ts base visitsInit (hashF url off ch) acc.length off ch])
        exact ⟨[mkRow url title ts base visitsInit (hashF url off ch) acc.length off ch] ++ tail,
          by rw [htail, List.append_assoc]⟩

theorem collectRows_skip_all (hashF : String → Nat → List Char → String)
    (url title ts base : String) (visitsInit : Int) (maxc : Nat)
    (existing : List String) :
    ∀ (l : List (Nat × List Char)),
      (∀ p ∈ l, hashF url p.1 p.2 ∈ existing) →
      ∀ acc, collectRows hashF url title ts base visitsInit maxc existing l acc = acc := by
  intro l
  induction l with
  | nil => intro _ acc; rfl
  | cons p rest ih =>
    intro hmem acc
    obtain ⟨off, ch⟩ := p
    show (if maxc ≤ acc.length then acc
      else if hashF url off ch ∈ existing then
        collectRows hashF url title ts base visitsInit maxc existing rest acc
      else _) = acc
    by_cases h1 : maxc ≤ acc.length
    · rw [if_pos h1]
    · rw [if_neg h1, if_pos (hmem (off, ch) (List.mem_cons_self _ _)),
        ih (fun q hq => hmem q (List.mem_cons_of_mem _ hq)) acc]

theorem collectRows_covers (hashF : String → Nat → List Char → String)
    (url title ts base : String) (visitsInit : Int) (maxc : Nat)
    (existing : List String) :
    ∀ (l : List (Nat × List Char)) (acc : List Row),
      l.length + acc.length ≤ maxc →
      ∀ p ∈ l, hashF url p.1 p.2 ∈ existing ∨
        some (hashF url p.1 p.2) ∈
          (collectRows hashF url title ts base visitsInit maxc existing l acc).map
            (fun r => r.chunk_hash) := by
  intro l
  induction l with
  | nil => intro acc _ p hp; exact absurd hp (List.not_mem_nil p)
  | cons q rest ih =>
    intro acc hlen p hp
    obtain ⟨off, ch⟩ := q
    have h1 : ¬ maxc ≤ acc.length := by
      simp only [List.length_cons] at hlen
      omega
    have hunf : collectRows hashF url title ts base visitsInit maxc existing
        ((off, ch) :: rest) acc
        = if hashF url off ch ∈ existing then
            collectRows hashF url title ts base visitsInit maxc existing rest acc
          else collectRows hashF url title ts base visitsInit maxc existing rest
            (acc ++ [mkRow url title ts base visitsInit (hashF url off ch) acc.length off ch]) := by
      show (if maxc ≤ acc.length then acc else _) = _
      rw [if_neg h1]
    by_cases h2 : hashF url off ch ∈ existing
    · rw [hunf, if_pos h2]
      rcases List.mem_cons.mp hp with rfl | hp'
      · exact Or.inl h2
      · exact ih acc (by simp only [List.length_cons] at hlen; omega) p hp'
    · rw [hunf, if_neg h2]
      rcases List.mem_cons.mp hp with rfl | hp'
      · right
        obtain ⟨tail, htail⟩ := collectRows_append hashF url title ts base visitsInit
          maxc existing rest
          (acc ++ [mkRow url title ts base visitsInit (hashF url off ch) acc.length off ch])
        rw [htail, List.map_append, List.map_append]
        apply List.mem_append_left
        apply List.mem_append_right
        simp [mkRow]
      · exact ih _
          (by simp only [List.length_cons, List.length_append, List.length_nil,
            List.length_singleton] at hlen ⊢; omega) p hp'

theorem collectRows_length (hashF : String → Nat → List Char → String)
    (url title ts base : String) (visitsInit : Int) (maxc : Nat)
    (existing : List String) :
    ∀ (l : List (Nat × List Char)) (acc : List Row),
      acc.length ≤ maxc →
      (collectRows hashF url title ts base visitsInit maxc existing l acc).length
        = min maxc (acc.length +
            (l.filter (fun p => hashF url p.1 p.2 ∉ existing)).length) := by
  intro l
  induction l with
  | nil =>
    intro acc hle
    show acc.length = min maxc (acc.length +
      (([] : List (Nat × List Char)).filter
        (fun p => hashF url p.1 p.2 ∉ existing)).length)
    rw [List.filter_nil, List.length_nil, Nat.add_zero]
    omega
  | cons q rest ih =>
    intro acc hle
    obtain ⟨off, ch⟩ := q
    show (if maxc ≤ acc.length then acc
      else if hashF url off ch ∈ existing then
        collectRows hashF url title ts base visitsInit maxc existing rest acc
      else collectRows hashF url title ts base visitsInit maxc existing rest
        (acc ++ [mkRow url title ts base visitsInit (hashF url off ch) acc.length off ch])).length
      = _
    by_cases h1 : maxc ≤ acc.length
    · rw [if_pos h1]
      omega
    · rw [if_neg h1]
      by_cases h2 : hashF url off ch ∈ existing
      · rw [if_pos h2, ih acc hle,
          show ((off, ch) :: rest).filter (fun p => hashF url p.1 p.2 ∉ existing)
            = rest.filter (fun p => hashF url p.1 p.2 ∉ existing) from by
              simp [List.filter_cons, h2]]
      · rw [if_neg h2, ih
          (acc ++ [mkRow url title ts base visitsInit (hashF url off ch) acc.length off ch])
          (by rw [List.length_append]; simp; omega),
          show ((off, ch) :: rest).filter (fun p => hashF url p.1 p.2 ∉ existing)
            = (off, ch) :: rest.filter (fun p => hashF url p.1 p.2 ∉ existing) from by
              simp [List.filter_cons, h2]]
        rw [List.length_append, List.length_cons]
        simp
        omega

theorem existingHashes_append (m1 m2 : List Row) :
    existingHashes (m1 ++ m2) = existingHashes m1 ++ existingHashes m2 :=
  List.filterMap_append m1 m2 _

theorem mem_existingHashes_of_map {h : String} {rows : List Row}
    (hmem : some h ∈ rows.map (fun r => r.chunk_hash)) :
    h ∈ existingHashes rows := by
  obtain ⟨r, hr, hrh⟩ := List.mem_map.mp hmem
  exact List.mem_filterMap.mpr ⟨r, hr, hrh⟩

/-- C4: if a first `index_page_core` call succeeded on a text whose chunk
count is within the per-document cap, then repeating the call with the same
url, title and text (at any later time, with any embedder) yields
`indexed_chunks = 0` and leaves the state — hence both store lengths —
unchanged; the result being the same for every embedder expresses that
the embedding provider is never consulted. -/
theorem C4_idempotent {V : Type}
    (embed₁ : List (List Char) → Except String (List V))
    (hashF : String → Nat → List Char → String) (baseF : String → String)
    (size overlap maxc : Nat) (s s' : St V) (url title : String)
    (text : List Char) (nowIso₁ : String) (k : Nat)
    (hcap : (chunks size overlap text).length ≤ maxc)
    (hcall : indexPageCore embed₁ hashF baseF size overlap maxc s url title text nowIso₁
      = .ok (s', k)) :
    ∀ (embed₂ : List (List Char) → Except String (List V)) (nowIso₂ : String),
      rowsOf hashF baseF size overlap maxc s' url title text nowIso₂ = [] ∧
        indexPageCore embed₂ hashF baseF size overlap maxc s' url title text nowIso₂
          = .ok (s', 0) := by
  intro embed₂ nowIso₂
  have hmeta : s'.meta
      = s.meta ++ rowsOf hashF baseF size overlap maxc s url title text nowIso₁ := by
    rcases indexPageCore_ok_cases embed₁ hashF baseF size overlap maxc s url title
        text nowIso₁ s' k hcall with ⟨hs, _, hrows⟩ | ⟨vecs, _, hs, _⟩
    · rw [hs, hrows, List.append_nil]
    · rw [hs]; rfl
  have hcover : ∀ p ∈ chunks size overlap text,
      hashF url p.1 p.2 ∈ existingHashes s'.meta := by
    intro p hp
    have hcov := collectRows_covers hashF url title nowIso₁ (baseF url)
      (visitsInitOf s.meta url) maxc (existingHashes s.meta)
      (chunks size overlap text) [] (by simpa using hcap) p hp
    rw [hmeta, existingHashes_append]
    rcases hcov with h | h
    · exact List.mem_append_left _ h
    · exact List.mem_append_right _ (mem_existingHashes_of_map h)
  have hrows2 : rowsOf hashF baseF size overlap maxc s' url title text nowIso₂ = [] :=
    collectRows_skip_all hashF url title nowIso₂ (baseF url)
      (visitsInitOf s'.meta url) maxc (existingHashes s'.meta)
      (chunks size overlap text) hcover []
  refine ⟨hrows2, ?_⟩
  unfold indexPageCore
  rw [hrows2]
  rfl

theorem C4_idempotent_witness :
    rowsOf hashId baseId 3 1 5
        (appendSt [(), ()]
          (rowsOf hashId baseId 3 1 5 (emptySt Unit) "u" "t" ['a', 'b', 'c', 'd'] "T0")
          (emptySt Unit))
        "u" "t" ['a', 'b', 'c', 'd'] "T1" = [] := by
  have hgo : chunks 3 1 ['a', 'b', 'c', 'd'] = chunksGo 3 1 ['a', 'b', 'c', 'd'] 4 0 :=
    chunks_eq_go 3 1 ['a', 'b', 'c', 'd']
  exact (C4_idempotent embedOkU hashId baseId 3 1 5 (emptySt Unit) _ "u" "t"
    ['a', 'b', 'c', 'd'] "T0" 2
    (by rw [hgo]; decide)
    (by unfold indexPageCore rowsOf; rw [hgo]; rfl)
    embedFailU "T1").1

/-- State after the first capped call of the counterexample. -/
def c4s1 : St Unit :=
  appendSt [()]
    (collectRows hashId "u" "t" "T0" "u" 1 1 []
      (chunksGo 3 1 ['a', 'b', 'c', 'd'] 4 0) [])
    (emptySt Unit)

/-- State after the second (identical-input) call of the counterexample. -/
def c4s2 : St Unit :=
  appendSt [()]
    (collectRows hashId "u" "t" "T0" "u" 1 1 (existingHashes c4s1.meta)
      (chunksGo 3 1 ['a', 'b', 'c', 'd'] 4 0) [])
    c4s1

/-- Counterexample to unconditional idempotence: with a per-document cap of
1 and a text that chunks into two windows, the first call indexes one chunk
and the second *identical* call indexes the chunk the cap dropped —
`indexed_chunks = 1`, not 0, and the ledger grows. -/
theorem C4_idempotent_counterexample :
    ∃ (s₁ s₂ : St Unit) (k : Nat),
      indexPageCore embedOkU hashId baseId 3 1 1 (emptySt Unit) "u" "t"
          ['a', 'b', 'c', 'd'] "T0" = .ok (s₁, k) ∧
        indexPageCore embedOkU hashId baseId 3 1 1 s₁ "u" "t"
            ['a', 'b', 'c', 'd'] "T0" = .ok (s₂, 1) ∧
          s₂.meta.length = s₁.meta.length + 1 := by
  have hgo : chunks 3 1 ['a', 'b', 'c', 'd'] = chunksGo 3 1 ['a', 'b', 'c', 'd'] 4 0 :=
    chunks_eq_go 3 1 ['a', 'b', 'c', 'd']
  refine ⟨c4s1, c4s2, 1, ?_, ?_, ?_⟩
  · unfold indexPageCore rowsOf
    rw [hgo]
    rfl
  · unfold indexPageCore rowsOf
    rw [hgo]
    rfl
  · rfl

/-- `index_page_core` unfolded to its decision structure (definitional). -/
theorem indexPageCore_eq {V : Type}
    (embed : List (List Char) → Except String (List V))
    (hashF : String → Nat → List Char → String) (baseF : String → String)
    (size overlap maxc : Nat) (s : St V) (url title : String)
    (text : List Char) (nowIso : String) :
    indexPageCore embed hashF baseF size overlap maxc s url title text nowIso
      = if (rowsOf hashF baseF size overlap maxc s url title text nowIso).isEmpty then
          .ok (s, 0)
        else
          match embed (payloadsOf hashF baseF size overlap maxc s url title text nowIso) with
          | .error e => .error e
          | .ok vecs =>
            .ok (appendSt vecs (rowsOf hashF baseF size overlap maxc s url title text nowIso) s,
              (rowsOf hashF baseF size overlap maxc s url title text nowIso).length) := rfl

/-- C8: when a call would produce strictly more than `MAX_CHUNKS_PER_DOC`
new (non-duplicate) chunks, exactly `maxc` rows are built and indexed, the
excess is dropped, and the call still succeeds (no error). -/
theorem C8_cap {V : Type}
    (embed : List (List Char) → Except String (List V))
    (hashF : String → Nat → List Char → String) (baseF : String → String)
    (size overlap maxc : Nat) (s : St V) (url title : String)
    (text : List Char) (nowIso : String) (vecs : List V)
    (hnew : maxc < ((chunks size overlap text).filter
      (fun p => hashF url p.1 p.2 ∉ existingHashes s.meta)).length)
    (hemb : embed (payloadsOf hashF baseF size overlap maxc s url title text nowIso)
      = .ok vecs) :
    (rowsOf hashF baseF size overlap maxc s url title text nowIso).length = maxc ∧
      ∃ s', indexPageCore embed hashF baseF size overlap maxc s url title text nowIso
          = .ok (s', maxc) ∧
        s'.meta.length = s.meta.length + maxc := by
  have hlen : (rowsOf hashF baseF size overlap maxc s url title text nowIso).length
      = maxc := by
    unfold rowsOf
    rw [collectRows_length hashF url title nowIso (baseF url) (visitsInitOf s.meta url)
      maxc (existingHashes s.meta) (chunks size overlap text) [] (by simp)]
    simp only [List.length_nil, Nat.zero_add]
    omega
  by_cases hr : (rowsOf hashF baseF size overlap maxc s url title text nowIso).isEmpty
  · have h0 : maxc = 0 := by
      rw [List.isEmpty_iff] at hr
      rw [hr] at hlen
      simpa using hlen.symm
    refine ⟨hlen, s, ?_, by omega⟩
    rw [indexPageCore_eq, if_pos hr, h0]
  · refine ⟨hlen, appendSt vecs (rowsOf hashF baseF size overlap maxc s url title text nowIso) s,
      ?_, ?_⟩
    · rw [indexPageCore_eq, if_neg hr, hemb, hlen]
    · show (s.meta ++ rowsOf hashF baseF size overlap maxc s url title text nowIso).length = _
      rw [List.length_append, hlen]

theorem C8_cap_witness :
    (rowsOf hashId baseId 3 1 1 (emptySt Unit) "u" "t" ['a', 'b', 'c', 'd'] "T0").length
      = 1 := by
  have hgo : chunks 3 1 ['a', 'b', 'c', 'd'] = chunksGo 3 1 ['a', 'b', 'c', 'd'] 4 0 :=
    chunks_eq_go 3 1 ['a', 'b', 'c', 'd']
  exact (C8_cap embedOkU hashId baseId 3 1 1 (emptySt Unit) "u" "t" ['a', 'b', 'c', 'd']
    "T0" [()]
    (by rw [hgo]; decide)
    (by unfold payloadsOf rowsOf; rw [hgo]; rfl)).1

/-! ### Embedding normalization (claim C9) -/

theorem l2norm_nonneg (v : List ℝ) : 0 ≤ l2norm v := Real.sqrt_nonneg _

theorem sq_sum_zero_of_l2norm_zero {v : List ℝ} (h : l2norm v = 0) :
    (v.map (fun x => x ^ 2)).sum = 0 := by
  have hnn : 0 ≤ (v.map (fun x => x ^ 2)).sum := by
    apply List.sum_nonneg
    intro x hx
    obtain ⟨y, _, rfl⟩ := List.mem_map.mp hx
    positivity
  exact (Real.sqrt_eq_zero hnn).mp h

/-- C9: the normalization step of `_embed_batch` never divides by zero —
the divisor is 1 exactly when the row's L2 norm is zero — every
nonzero-norm row is divided componentwise by its L2 norm, and every row
whose computed norm is zero comes out as the all-zero vector. -/
theorem C9_normalization (arr : List (List ℝ)) :
    normalizeRows arr = arr.map normalizeRow ∧
      ∀ v ∈ arr,
        normDenom v ≠ 0 ∧
          (l2norm v ≠ 0 → normalizeRow v = v.map (fun x => x / l2norm v)) ∧
          (l2norm v = 0 → ∀ x ∈ normalizeRow v, x = 0) := by
  refine ⟨rfl, ?_⟩
  intro v _
  refine ⟨?_, ?_, ?_⟩
  · unfold normDenom
    by_cases h : l2norm v = 0
    · rw [if_pos h]; exact one_ne_zero
    · rw [if_neg h]; exact h
  · intro h
    unfold normalizeRow normDenom
    rw [if_neg h]
  · intro h x hx
    unfold normalizeRow at hx
    obtain ⟨y, hy, rfl⟩ := List.mem_map.mp hx
    have hsum := sq_sum_zero_of_l2norm_zero h
    have hy2 : y ^ 2 = 0 := by
      have hmem : y ^ 2 ∈ v.map (fun x => x ^ 2) := List.mem_map.mpr ⟨y, hy, rfl⟩
      have hle : y ^ 2 ≤ (v.map (fun x => x ^ 2)).sum := by
        apply List.single_le_sum _ _ hmem
        intro x hx'
        obtain ⟨z, _, rfl⟩ := List.mem_map.mp hx'
        positivity
      nlinarith [sq_nonneg y]
    have hy0 : y = 0 := sq_eq_zero_iff.mp hy2
    rw [hy0, zero_div]

theorem C9_normalization_witness :
    ∀ x ∈ normalizeRow [(0 : ℝ), 0], x = 0 :=
  ((C9_normalization [[(0 : ℝ), 0]]).2 [(0 : ℝ), 0] (List.mem_singleton_self _)).2.2
    (by
      unfold l2norm
      rw [show ((([(0 : ℝ), 0]).map (fun x => x ^ 2)).sum) = 0 by norm_num]
      exact Real.sqrt_zero)

/-! ### Scoring formula (claim C2) -/

theorem lamOf_nonneg (c : SCfg) : 0 ≤ lamOf c := by
  unfold lamOf
  apply div_nonneg (Real.log_nonneg one_le_two)
  have : (0 : ℝ) < 1 / 1000000 := by norm_num
  exact le_of_lt (lt_of_lt_of_le this (le_max_left _ _))

theorem ageDaysOf_nonneg (c : SCfg) (now : ℝ) (r : Row) : 0 ≤ ageDaysOf c now r :=
  le_max_left 0 _

/-- C2: the final score is
`simW * sim + tempW * (freshW * freshness + popW * popularity)` with
`freshness = exp(-ln 2 * age / halfLife)` (for any half life at or above
the `1e-6` guard), freshness lies in `(0, 1]`, `age_days` is clamped to
`≥ 0` with missing or malformed timestamps giving age 0, and popularity
`1 - exp(-visits/3)` lies in `[0, 1)` for nonnegative visit counts, with
zero visits giving popularity 0. -/
theorem C2_score_formula (c : SCfg) (now sim : ℝ) (r : Row)
    (hhl : (1 : ℝ) / 1000000 ≤ c.halfLife)
    (hvis : (0 : ℤ) ≤ r.visits.getD 1) :
    scoreOf c now sim r
        = c.simW * sim + c.tempW *
            (c.freshW * Real.exp (-Real.log 2 * ageDaysOf c now r / c.halfLife)
              + c.popW * popularityOf r) ∧
      0 < freshnessOf c now r ∧ freshnessOf c now r ≤ 1 ∧
      0 ≤ ageDaysOf c now r ∧
      (r.timestamp = none → ageDaysOf c now r = 0) ∧
      (∀ ts, r.timestamp = some ts → c.parseTs ts = none → ageDaysOf c now r = 0) ∧
      0 ≤ popularityOf r ∧ popularityOf r < 1 ∧
      (r.visits = some 0 → popularityOf r = 0) := by
  have hmax : max ((1 : ℝ) / 1000000) c.halfLife = c.halfLife := max_eq_right hhl
  have hfresh : freshnessOf c now r
      = Real.exp (-Real.log 2 * ageDaysOf c now r / c.halfLife) := by
    unfold freshnessOf lamOf
    rw [hmax]
    ring_nf
  refine ⟨?_, ?_, ?_, ageDaysOf_nonneg c now r, ?_, ?_, ?_, ?_, ?_⟩
  · unfold scoreOf hybridOf
    rw [hfresh]
  · exact Real.exp_pos _
  · apply Real.exp_le_one_iff.mpr
    have h1 := lamOf_nonneg c
    have h2 := ageDaysOf_nonneg c now r
    nlinarith
  · intro h
    unfold ageDaysOf tsSecOf
    rw [h]
    simp
  · intro ts hts hparse
    unfold ageDaysOf
    rw [hts, show tsSecOf c now (some ts)
      = if ts = "" then now else (c.parseTs ts).getD now from rfl]
    by_cases he : ts = ""
    · rw [if_pos he]
      simp
    · rw [if_neg he, hparse]
      simp
  · unfold popularityOf
    have : Real.exp (-visitsValOf r / 3) ≤ 1 := by
      apply Real.exp_le_one_iff.mpr
      have : (0 : ℝ) ≤ visitsValOf r := by
        unfold visitsValOf
        exact_mod_cast hvis
      linarith
    linarith
  · unfold popularityOf
    have := Real.exp_pos (-visitsValOf r / 3)
    linarith
  · intro h
    unfold popularityOf visitsValOf
    rw [h]
    norm_num

/-- A concrete scoring configuration for witnesses: all weights 1, half
life 1 day, a timestamp parser that knows only the instant `"old"`
(one day before epoch) and `"T0"` (epoch). -/
noncomputable def testCfg : SCfg :=
  { halfLife := 1
    freshW := 1
    popW := 1
    simW := 1
    tempW := 1
    parseTs := fun s => if s = "old" then some (-86400) else if s = "T0" then some 0 else none
    fallbackTs := fun _ => "fallback" }

theorem C2_score_formula_witness :
    0 < freshnessOf testCfg 0 testRow ∧ freshnessOf testCfg 0 testRow ≤ 1 :=
  ⟨(C2_score_formula testCfg 0 0 testRow (by norm_num [testCfg]) (by decide)).2.1,
    (C2_score_formula testCfg 0 0 testRow (by norm_num [testCfg]) (by decide)).2.2.1⟩

/-! ### Search ordering (claim C3) -/

theorem filter_orderedInsert_score (sc : ℝ) (a : Hit) :
    ∀ (l : List Hit),
      (List.orderedInsert hitGe a l).filter (fun h => h.score = sc)
        = if a.score = sc then a :: l.filter (fun h => h.score = sc)
          else l.filter (fun h => h.score = sc) := by
  intro l
  induction l with
  | nil =>
    show [a].filter (fun h => h.score = sc) = _
    by_cases h : a.score = sc
    · rw [if_pos h]
      simp [List.filter_cons, h]
    · rw [if_neg h]
      simp [List.filter_cons, h]
  | cons b l ih =>
    show (if hitGe a b then a :: b :: l else b :: List.orderedInsert hitGe a l).filter
        (fun h => h.score = sc) = _
    by_cases hab : hitGe a b
    · rw [if_pos hab]
      by_cases h : a.score = sc
      · rw [if_pos h]
        simp [List.filter_cons, h]
      · rw [if_neg h]
        simp [List.filter_cons, h]
    · rw [if_neg hab]
      have hbgt : a.score < b.score := lt_of_not_le hab
      rw [List.filter_cons, List.filter_cons, ih]
      by_cases h : a.score = sc
      · have hbne : ¬ b.score = sc := by
          intro hb
          rw [h] at hbgt
          rw [hb] at hbgt
          exact lt_irrefl sc hbgt
        simp only [if_pos h, hbne, decide_eq_true_eq, if_neg hbne]
        simp [hbne]
      · simp only [if_neg h]

theorem filter_sortHits_score (sc : ℝ) :
    ∀ (l : List Hit),
      (sortHits l).filter (fun h => h.score = sc) = l.filter (fun h => h.score = sc) := by
  intro l
  induction l with
  | nil => rfl
  | cons a l ih =>
    have hstep : sortHits (a :: l) = List.orderedInsert hitGe a (sortHits l) := rfl
    rw [hstep, filter_orderedInsert_score, List.filter_cons, ih]
    by_cases h : a.score = sc
    · rw [if_pos h]
      simp [h]
    · rw [if_neg h]
      simp [h]

/-- C3: search returns at most `top_k` hits, the returned list is sorted
by final score in descending order, candidates of equal score keep their
original (similarity-rank) order under the stable sort, and an empty or
missing vector store produces the empty list. -/
theorem C3_search_shape {V : Type} (c : SCfg) (s : St V) (now : ℝ)
    (cands : List (Int × ℝ)) (top_k : Nat) (hk : 1 ≤ top_k) :
    (searchDocumentsCore c s now cands top_k).length ≤ top_k ∧
      List.Sorted hitGe (searchDocumentsCore c s now cands top_k) ∧
      (∀ sc : ℝ,
        (sortHits (hitsListOf c now s.meta cands)).filter (fun h => h.score = sc)
          = (hitsListOf c now s.meta cands).filter (fun h => h.score = sc)) ∧
      (vecCount s.index = 0 → searchDocumentsCore c s now cands top_k = []) := by
  refine ⟨?_, ?_, fun sc => filter_sortHits_score sc _, ?_⟩
  · unfold searchDocumentsCore
    by_cases h : vecCount s.index = 0
    · rw [if_pos h]
      simp
    · rw [if_neg h]
      exact List.length_take_le _ _
  · unfold searchDocumentsCore
    by_cases h : vecCount s.index = 0
    · rw [if_pos h]
      exact List.sorted_nil
    · rw [if_neg h]
      have hs : List.Sorted hitGe (sortHits (hitsListOf c now s.meta cands)) :=
        List.sorted_insertionSort hitGe _
      exact List.Pairwise.sublist (List.take_sublist top_k _) hs
  · intro h
    unfold searchDocumentsCore
    rw [if_pos h]

theorem C3_search_shape_witness :
    searchDocumentsCore testCfg (emptySt Unit) 0 [] 1 = [] :=
  (C3_search_shape testCfg (emptySt Unit) 0 [] 1 (by norm_num)).2.2.2 rfl

/-! ### Candidate-index safety (claim C10) -/

/-- C10: every returned hit is built from an in-range ledger record and a
candidate the index produced; a candidate whose index is negative (FAISS
padding) or at least the ledger length contributes nothing; and a
non-empty store can still return fewer than `top_k` hits (all candidates
padding). -/
theorem C10_hits_from_ledger {V : Type} (c : SCfg) (s : St V) (now : ℝ)
    (cands : List (Int × ℝ)) (top_k : Nat) :
    (∀ h ∈ searchDocumentsCore c s now cands top_k,
      ∃ (i : Nat) (sim : ℝ) (hi : i < s.meta.length),
        ((i : Int), sim) ∈ cands ∧ h = mkHit c now (s.meta.get ⟨i, hi⟩) sim) ∧
      (∀ (idx : Int) (sim : ℝ), (idx < 0 ∨ (s.meta.length : Int) ≤ idx) →
        hitsListOf c now s.meta ((idx, sim) :: cands) = hitsListOf c now s.meta cands) ∧
      (vecCount (⟨some [()], [testRow]⟩ : St Unit).index ≠ 0 ∧
        (searchDocumentsCore c (⟨some [()], [testRow]⟩ : St Unit) now [(-1, 0)] 1).length
          < 1) := by
  refine ⟨?_, ?_, ?_, ?_⟩
  · intro h hmem
    unfold searchDocumentsCore at hmem
    by_cases he : vecCount s.index = 0
    · rw [if_pos he] at hmem
      exact absurd hmem (List.not_mem_nil h)
    · rw [if_neg he] at hmem
      have h1 : h ∈ sortHits (hitsListOf c now s.meta cands) :=
        List.mem_of_mem_take hmem
      have h2 : h ∈ hitsListOf c now s.meta cands :=
        (List.perm_insertionSort hitGe _).mem_iff.mp h1
      obtain ⟨p, hp, hf⟩ := List.mem_filterMap.mp h2
      by_cases hin : 0 ≤ p.1 ∧ p.1.toNat < s.meta.length
      · rw [dif_pos hin] at hf
        refine ⟨p.1.toNat, p.2, hin.2, ?_, (Option.some.inj hf).symm⟩
        have hpe : ((p.1.toNat : Int), p.2) = p :=
          Prod.ext (Int.toNat_of_nonneg hin.1) rfl
        rw [hpe]
        exact hp
      · rw [dif_neg hin] at hf
        exact absurd hf (by simp)
  · intro idx sim hout
    have hcond : ¬ (0 ≤ (idx, sim).1 ∧ (idx, sim).1.toNat < s.meta.length) := by
      intro ⟨h1, h2⟩
      rcases hout with h | h
      · omega
      · omega
    unfold hitsListOf
    rw [List.filterMap_cons, dif_neg hcond]
  · simp [vecCount]
  · have h0 : hitsListOf c now ([testRow]) [((-1 : Int), (0 : ℝ))] = [] := by
      unfold hitsListOf
      rw [List.filterMap_cons, dif_neg (by decide), List.filterMap_nil]
    unfold searchDocumentsCore
    rw [if_neg (by simp [vecCount])]
    show ((sortHits (hitsListOf c now [testRow] [(-1, 0)])).take 1).length < 1
    rw [h0]
    simp [sortHits]

/-! ### Score monotonicity at equal similarity (claim C7) -/

theorem lamOf_pos (c : SCfg) : 0 < lamOf c := by
  unfold lamOf
  apply div_pos (Real.log_pos one_lt_two)
  exact lt_of_lt_of_le (by norm_num) (le_max_left _ _)

/-- C7: among candidates scored with the same raw similarity (and positive
blend weights), the strictly fresher one (equal visits) and the strictly
more visited one (equal age) get a strictly higher final score, and a hit
with strictly higher score always occupies a strictly earlier position in
the sorted result order. -/
theorem C7_equal_similarity_rank (c : SCfg) (now sim : ℝ) (A B : Row)
    (hT : 0 < c.tempW) (hF : 0 < c.freshW) (hP : 0 < c.popW) :
    ((ageDaysOf c now A < ageDaysOf c now B ∧ visitsValOf A = visitsValOf B) →
        scoreOf c now sim B < scoreOf c now sim A) ∧
      ((ageDaysOf c now A = ageDaysOf c now B ∧ visitsValOf B < visitsValOf A) →
        scoreOf c now sim B < scoreOf c now sim A) ∧
      (scoreOf c now sim B < scoreOf c now sim A →
        ∀ (l : List Hit) (p q : Nat) (hp : p < (sortHits l).length)
          (hq : q < (sortHits l).length),
          (sortHits l).get ⟨p, hp⟩ = mkHit c now A sim →
          (sortHits l).get ⟨q, hq⟩ = mkHit c now B sim → p < q) := by
  refine ⟨?_, ?_, ?_⟩
  · rintro ⟨hage, hvis⟩
    have hfr : freshnessOf c now B < freshnessOf c now A := by
      unfold freshnessOf
      apply Real.exp_lt_exp.mpr
      have hl := lamOf_pos c
      nlinarith
    have hpop : popularityOf B = popularityOf A := by
      unfold popularityOf
      rw [hvis]
    unfold scoreOf hybridOf
    rw [hpop]
    nlinarith [mul_pos (mul_pos hT hF) (sub_pos.mpr hfr)]
  · rintro ⟨hage, hvis⟩
    have hfr : freshnessOf c now B = freshnessOf c now A := by
      unfold freshnessOf
      rw [hage]
    have hpop : popularityOf B < popularityOf A := by
      unfold popularityOf
      have : Real.exp (-visitsValOf A / 3) < Real.exp (-visitsValOf B / 3) := by
        apply Real.exp_lt_exp.mpr
        linarith
      linarith
    unfold scoreOf hybridOf
    rw [hfr]
    nlinarith [mul_pos (mul_pos hT hP) (sub_pos.mpr hpop)]
  · intro hlt l p q hp hq hpA hqB
    by_contra hpq
    push_neg at hpq
    have hsorted : List.Sorted hitGe (sortHits l) := List.sorted_insertionSort hitGe l
    rcases lt_or_eq_of_le hpq with hlt2 | heq
    · have := hsorted.rel_get_of_lt (show (⟨q, hq⟩ : Fin (sortHits l).length) < ⟨p, hp⟩ from hlt2)
      rw [hpA, hqB] at this
      have hsc : scoreOf c now sim A ≤ scoreOf c now sim B := this
      linarith
    · have : mkHit c now A sim = mkHit c now B sim := by
        rw [← hpA, ← hqB]
        congr 1
        exact Fin.ext heq.symm
      have hsc : scoreOf c now sim A = scoreOf c now sim B :=
        congrArg Hit.score this
      linarith

theorem C10_hits_from_ledger_witness :
    hitsListOf testCfg 0 (emptySt Unit).meta [((-1 : Int), (0 : ℝ))]
      = hitsListOf testCfg 0 (emptySt Unit).meta [] :=
  (C10_hits_from_ledger testCfg (emptySt Unit) 0 [] 5).2.1 (-1) 0
    (Or.inl (by norm_num))

/-- `testRow` aged by one day (its timestamp parses 86400 seconds before
the epoch under `testCfg`). -/
def rowOld : Row := { testRow with timestamp := some "old" }

theorem C7_equal_similarity_rank_witness :
    scoreOf testCfg 0 0 rowOld < scoreOf testCfg 0 0 testRow := by
  have htsA : tsSecOf testCfg 0 (some "T0") = 0 := by
    show (if "T0" = "" then (0 : ℝ) else (testCfg.parseTs "T0").getD 0) = 0
    rw [if_neg (by decide)]
    show (if "T0" = "old" then some (-86400 : ℝ)
      else if "T0" = "T0" then some (0 : ℝ) else none).getD 0 = 0
    rw [if_neg (by decide), if_pos rfl]
    rfl
  have htsB : tsSecOf testCfg 0 (some "old") = -86400 := by
    show (if "old" = "" then (0 : ℝ) else (testCfg.parseTs "old").getD 0) = -86400
    rw [if_neg (by decide)]
    show (if "old" = "old" then some (-86400 : ℝ)
      else if "old" = "T0" then some (0 : ℝ) else none).getD 0 = -86400
    rw [if_pos rfl]
    rfl
  have hageA : ageDaysOf testCfg 0 testRow = 0 := by
    unfold ageDaysOf
    rw [show testRow.timestamp = some "T0" from rfl, htsA]
    norm_num
  have hageB : ageDaysOf testCfg 0 rowOld = 1 := by
    unfold ageDaysOf
    rw [show rowOld.timestamp = some "old" from rfl, htsB]
    norm_num
  exact (C7_equal_similarity_rank testCfg 0 0 testRow rowOld
    (by norm_num [testCfg]) (by norm_num [testCfg]) (by norm_num [testCfg])).1
    ⟨by rw [hageA, hageB]; norm_num, rfl⟩

end RagCore
